import Mathlib

/-!
Shallow embedding of the light-synchronization engine of
`synchronized_lights.py` (the lightshowpi script): the per-channel adaptive
threshold controller (source lines 231-246), the gzip/CSV light-sequence
cache (store: lines 253-257, load: lines 171-176), the main playback loop
with its replay and fresh branches (lines 209-251), and the band-averaging
stage of `calculate_levels` (lines 181-207).

Python floats are modelled by rationals; the decimal literals of the source
(0.6, 1.2, 0.8) become the exact rationals 6/10, 12/10, 8/10.
-/

/-- Per-channel mutable state of the dynamic threshold classifier:
`limit[i]` (initial value 5, line 145) and the consecutive-off counter
`offct[i]` (initial value 0, line 146) of the source. -/
structure ChannelState where
  limit : ℚ
  offct : ℕ
deriving DecidableEq, Repr

/-- Initial per-channel state: `limit = 5` (line 145), `offct = 0` (line 146). -/
def initState : ChannelState := ⟨5, 0⟩

/-- The eight channels begin in the initial state (lines 145-146). -/
def initChannels : List ChannelState := List.replicate 8 initState

/-- The upward recalibration step, lines 232-233:
`if limit[i] < matrix[i] * 0.6: limit[i] = limit[i] * 1.2`.
Returns the (possibly grown) limit used by the subsequent decision. -/
def growthLimit (s : ChannelState) (band : ℚ) : ℚ :=
  if s.limit < band * (6 / 10) then s.limit * (12 / 10) else s.limit

/-- One controller update for one channel, lines 232-246 of the source:
first the upward recalibration (lines 232-233), then the strict decision
`matrix[i] > limit[i]` (line 235); the on branch resets `offct` (line 237),
the off branch increments it and decays the limit by 0.8 once the counter
exceeds 10 (lines 240-243). Returns the emitted on/off bit and the new
channel state. -/
def updateChannel (s : ChannelState) (band : ℚ) : Bool × ChannelState :=
  let l := growthLimit s band
  if l < band then
    (true, ⟨l, 0⟩)
  else
    let o := s.offct + 1
    if 10 < o then (false, ⟨l * (8 / 10), 0⟩) else (false, ⟨l, o⟩)

/-- A finite sequence of controller updates on one channel, in call order
(the per-block iteration of the main loop, lines 230-246). -/
def runUpdates (s : ChannelState) (bands : List ℚ) : ChannelState :=
  bands.foldl (fun st b => (updateChannel st b).2) s

@[simp] theorem runUpdates_nil (s : ChannelState) : runUpdates s [] = s := rfl

@[simp] theorem runUpdates_cons (s : ChannelState) (b : ℚ) (bs : List ℚ) :
    runUpdates s (b :: bs) = runUpdates (updateChannel s b).2 bs := rfl

theorem runUpdates_append (s : ChannelState) (l1 l2 : List ℚ) :
    runUpdates s (l1 ++ l2) = runUpdates (runUpdates s l1) l2 := by
  simp [runUpdates, List.foldl_append]

/-- One update keeps the threshold strictly positive: it only ever
multiplies the limit by 12/10 or 8/10. -/
theorem updateChannel_limit_pos (s : ChannelState) (b : ℚ)
    (h : 0 < s.limit) : 0 < (updateChannel s b).2.limit := by
  have hg : 0 < growthLimit s b := by
    unfold growthLimit
    split
    · positivity
    · exact h
  unfold updateChannel
  dsimp only
  split
  · exact hg
  · split
    · dsimp only
      positivity
    · exact hg

theorem runUpdates_limit_pos (bands : List ℚ) :
    ∀ s : ChannelState, 0 < s.limit → 0 < (runUpdates s bands).limit := by
  induction bands with
  | nil => intro s h; simpa using h
  | cons b bs ih =>
    intro s h
    rw [runUpdates_cons]
    exact ih _ (updateChannel_limit_pos s b h)

/-- C2: starting from the initial state (threshold 5), the threshold of a
channel is strictly positive after every finite sequence of controller
updates: it is only ever multiplied by the fixed factors 12/10 and 8/10 and
never reset or assigned from outside. -/
theorem c2_threshold_pos (bands : List ℚ) :
    0 < (runUpdates initState bands).limit :=
  runUpdates_limit_pos bands initState (by norm_num [initState])

/-- C3: a band value exactly equal to the channel threshold at decision
time (after the upward recalibration of lines 232-233) is classified OFF:
line 235 compares with strict greater-than, not greater-or-equal. -/
theorem c3_boundary_off (s : ChannelState) (band : ℚ)
    (h : band = growthLimit s band) : (updateChannel s band).1 = false := by
  have hnot : ¬ growthLimit s band < band := by
    rw [← h]
    exact lt_irrefl band
  unfold updateChannel
  dsimp only
  rw [if_neg hnot]
  split <;> rfl

/-- C3 witness: at threshold 5 with band value 5 (no growth fires since
5 < 5 * 6/10 is false), the channel is OFF. -/
theorem c3_boundary_off_witness :
    (5 : ℚ) = growthLimit initState 5 ∧ (updateChannel initState 5).1 = false :=
  ⟨by norm_num [growthLimit, initState],
   c3_boundary_off initState 5 (by norm_num [growthLimit, initState])⟩

/-- C4: the upward recalibration happens before the ON/OFF decision, and
the decision is made against the possibly-grown threshold; concretely, a
channel at threshold 5 fed band value 10 grows to threshold 6
(5 < 10 * 6/10, so 5 * 12/10 = 6) and is classified ON (10 > 6). -/
theorem c4_growth_before_decision :
    (∀ (s : ChannelState) (b : ℚ),
      (updateChannel s b).1 = decide (growthLimit s b < b)) ∧
    updateChannel initState 10 = (true, ⟨6, 0⟩) := by
  constructor
  · intro s b
    unfold updateChannel
    dsimp only
    split
    · simp_all
    · split <;> simp_all
  · unfold updateChannel growthLimit initState
    norm_num

/-- During a run of OFF blocks (band value at most the current positive
threshold), one update increments the counter and leaves the limit alone,
as long as the counter stays at 10 or below. -/
theorem updateChannel_off_step (L : ℚ) (j : ℕ) (b : ℚ)
    (hL : 0 < L) (hb : b ≤ L) (hj : j + 1 ≤ 10) :
    updateChannel ⟨L, j⟩ b = (false, ⟨L, j + 1⟩) := by
  have hgrow : growthLimit ⟨L, j⟩ b = L := by
    unfold growthLimit
    dsimp only
    rw [if_neg]
    intro hlt
    have h1 : b * (6 / 10) ≤ L * (6 / 10) := by
      apply mul_le_mul_of_nonneg_right hb
      norm_num
    have h2 : L * (6 / 10) < L := by nlinarith
    linarith
  unfold updateChannel
  rw [hgrow]
  dsimp only
  rw [if_neg (by intro hlt; exact absurd hlt (not_lt.mpr hb))]
  rw [if_neg (by omega)]

/-- The eleventh consecutive OFF update (counter at 10) decays the limit
by 8/10 and resets the counter. -/
theorem updateChannel_off_decay (L : ℚ) (b : ℚ)
    (hL : 0 < L) (hb : b ≤ L) :
    updateChannel ⟨L, 10⟩ b = (false, ⟨L * (8 / 10), 0⟩) := by
  have hgrow : growthLimit ⟨L, 10⟩ b = L := by
    unfold growthLimit
    dsimp only
    rw [if_neg]
    intro hlt
    have h1 : b * (6 / 10) ≤ L * (6 / 10) := by
      apply mul_le_mul_of_nonneg_right hb
      norm_num
    have h2 : L * (6 / 10) < L := by nlinarith
    linarith
  unfold updateChannel
  rw [hgrow]
  dsimp only
  rw [if_neg (by intro hlt; exact absurd hlt (not_lt.mpr hb))]
  rw [if_pos (by omega)]

theorem runUpdates_off_run (L : ℚ) (b : ℚ) (hL : 0 < L) (hb : b ≤ L) :
    ∀ (k j : ℕ), j + k ≤ 10 →
      runUpdates ⟨L, j⟩ (List.replicate k b) = ⟨L, j + k⟩ := by
  intro k
  induction k with
  | zero => intro j _; simp
  | succ n ih =>
    intro j hjk
    rw [List.replicate_succ, runUpdates_cons,
      updateChannel_off_step L j b hL hb (by omega)]
    rw [ih (j + 1) (by omega)]
    congr 1
    omega

/-- C5: starting with the off counter at 0 and a band value never exceeding
the positive threshold, updates 1 through 10 leave the threshold unchanged
and only count (no decay); the 11th update is the single decay event,
multiplying the threshold by 8/10 and resetting the counter to 0
immediately; and an ON decision resets the counter to 0 while keeping the
(possibly just-grown) threshold, with no decay. -/
theorem c5_off_run_decay (s : ChannelState) (b : ℚ)
    (hl : 0 < s.limit) (ho : s.offct = 0) (hb : b ≤ s.limit) :
    (∀ k, k ≤ 10 → runUpdates s (List.replicate k b) = ⟨s.limit, k⟩) ∧
    runUpdates s (List.replicate 11 b) = ⟨s.limit * (8 / 10), 0⟩ ∧
    (∀ (s2 : ChannelState) (b2 : ℚ), growthLimit s2 b2 < b2 →
      (updateChannel s2 b2).2 = ⟨growthLimit s2 b2, 0⟩) := by
  obtain ⟨L, j⟩ := s
  dsimp only at hl hb
  subst ho
  refine ⟨?_, ?_, ?_⟩
  · intro k hk
    have h := runUpdates_off_run L b hl hb k 0 (by omega)
    simpa using h
  · have h10 : List.replicate 11 b = List.replicate 10 b ++ List.replicate 1 b :=
      List.replicate_add 10 1 b
    rw [h10, runUpdates_append]
    have hrun := runUpdates_off_run L b hl hb 10 0 (by omega)
    simp only [Nat.zero_add] at hrun
    rw [hrun]
    have hlast : runUpdates ⟨L, 10⟩ (List.replicate 1 b) = ⟨L * (8 / 10), 0⟩ := by
      rw [List.replicate_succ, List.replicate_zero, runUpdates_cons,
        updateChannel_off_decay L b hl hb]
      rfl
    rw [hlast]
  · intro s2 b2 hon
    unfold updateChannel
    dsimp only
    rw [if_pos hon]

/-- C5 witness: from the initial state fed band value 0 eleven times, the
threshold ends at 5 * 8/10 with the counter reset to 0. -/
theorem c5_off_run_decay_witness :
    runUpdates initState (List.replicate 11 0) = ⟨5 * (8 / 10), 0⟩ :=
  (c5_off_run_decay initState 0 (by norm_num [initState]) rfl
    (by norm_num [initState])).2.1

/-- One update with a band value in [0, 100] keeps the threshold strictly
below 72: growth only fires when the limit is below bandValue * 6/10 <= 60,
so the grown limit stays below 60 * 12/10 = 72, and decay only shrinks it. -/
theorem updateChannel_limit_lt_72 (s : ChannelState) (b : ℚ)
    (hb0 : 0 ≤ b) (hb1 : b ≤ 100) (h : s.limit < 72) :
    (updateChannel s b).2.limit < 72 := by
  have hg : growthLimit s b < 72 := by
    unfold growthLimit
    split
    · rename_i hlt
      have hb6 : b * (6 / 10) ≤ 60 := by linarith
      have : s.limit < 60 := lt_of_lt_of_le hlt hb6
      linarith
    · exact h
  unfold updateChannel
  dsimp only
  split
  · exact hg
  · split
    · dsimp only
      linarith
    · exact hg

theorem runUpdates_limit_lt_72 (bands : List ℚ) :
    ∀ s : ChannelState, (∀ b ∈ bands, 0 ≤ b ∧ b ≤ 100) → s.limit < 72 →
      (runUpdates s bands).limit < 72 := by
  induction bands with
  | nil => intro s _ h; simpa using h
  | cons b bs ih =>
    intro s hmem h
    rw [runUpdates_cons]
    exact ih _ (fun x hx => hmem x (List.mem_cons_of_mem b hx))
      (updateChannel_limit_lt_72 s b (hmem b (List.mem_cons_self b bs)).1
        (hmem b (List.mem_cons_self b bs)).2 h)

/-- C10: if every band value fed to the controller lies in [0, 100] (as
guaranteed by the clip on line 206) and the threshold starts at 5, the
threshold stays strictly below 72 after every update. -/
theorem c10_threshold_lt_72 (bands : List ℚ)
    (hmem : ∀ b ∈ bands, 0 ≤ b ∧ b ≤ 100) :
    (runUpdates initState bands).limit < 72 :=
  runUpdates_limit_lt_72 bands initState hmem (by norm_num [initState])

/-- C10 witness: a single maximal band value 100 leaves the threshold at
6, below 72. -/
theorem c10_threshold_lt_72_witness :
    (runUpdates initState [100]).limit < 72 :=
  c10_threshold_lt_72 [100] (by intro b hb; simp at hb; simp [hb])

/-! ## The light-sequence cache

The cache is a gzip file of comma-delimited rows, one row per block
(store: `csv.writer(f, delimiter=',')` plus `writerows(cache)`, lines
253-257; load: `csv.reader(f, delimiter=',')` collecting rows, lines
171-176). Rows are modelled as lists of fields, fields and lines as lists
of characters. The replay branch converts a field with `int(entry[i])`
(line 220) and treats a nonzero value as ON. -/

/-- A fresh-mode row field: the literal written on lines 238 and 246. -/
def encodeField (b : Bool) : List Char := if b then ['1'] else ['0']

/-- Decimal parse of a field, the `int(entry[i])` of line 220. -/
def parseNat (f : List Char) : ℕ :=
  f.foldl (fun n c => 10 * n + (c.toNat - 48)) 0

/-- The truth test `if int(entry[i])` of line 220: nonzero means ON. -/
def decodeField (f : List Char) : Bool := parseNat f != 0

/-- Decode a cached row of fields into the per-channel booleans applied to
the lights (lines 219-223). -/
def decodeFields (e : List (List Char)) : List Bool := e.map decodeField

/-- Encode an emitted channel vector as the row of fields appended to the
in-memory cache in fresh mode (lines 229, 238, 246-247). -/
def encodeFields (row : List Bool) : List (List Char) :=
  row.map encodeField

/-- Join a row of fields with the comma delimiter of the csv writer. -/
def joinFields : List (List Char) → List Char
  | [] => []
  | [f] => f
  | f :: g :: fs => f ++ ',' :: joinFields (g :: fs)

/-- Split a csv line at the comma delimiter, the csv reader of line 173. -/
def splitFields : List Char → List (List Char)
  | [] => [[]]
  | c :: cs =>
    if c = ',' then [] :: splitFields cs
    else
      match splitFields cs with
      | [] => [[c]]
      | g :: gs => (c :: g) :: gs

theorem splitFields_cons_eq (c : Char) (cs : List Char) (hc : c ≠ ',')
    (g : List Char) (gs : List (List Char)) (h : splitFields cs = g :: gs) :
    splitFields (c :: cs) = (c :: g) :: gs := by
  have h2 : splitFields (c :: cs) =
      if c = ',' then [] :: splitFields cs
      else
        match splitFields cs with
        | [] => [[c]]
        | g :: gs => (c :: g) :: gs := rfl
  rw [h2, if_neg hc, h]

/-- A comma-free prefix followed by a comma splits off as one field. -/
theorem splitFields_append_comma (f : List Char) (hf : ',' ∉ f)
    (cs : List Char) : splitFields (f ++ ',' :: cs) = f :: splitFields cs := by
  induction f with
  | nil => rfl
  | cons c f0 ih =>
    have hc : c ≠ ',' := fun h => hf (h ▸ List.mem_cons_self c f0)
    exact splitFields_cons_eq c _ hc f0 (splitFields cs)
      (ih (fun h => hf (List.mem_cons_of_mem c h)))

/-- A comma-free line splits into a single field. -/
theorem splitFields_of_comma_free (f : List Char) (hf : ',' ∉ f) :
    splitFields f = [f] := by
  induction f with
  | nil => rfl
  | cons c f0 ih =>
    have hc : c ≠ ',' := fun h => hf (h ▸ List.mem_cons_self c f0)
    exact splitFields_cons_eq c f0 hc f0 []
      (ih (fun h => hf (List.mem_cons_of_mem c h)))

/-- Splitting undoes joining on any nonempty row of comma-free fields. -/
theorem splitFields_joinFields (fs : List (List Char)) (hne : fs ≠ [])
    (hf : ∀ f ∈ fs, ',' ∉ f) :
    splitFields (joinFields fs) = fs := by
  induction fs with
  | nil => exact absurd rfl hne
  | cons f rest ih =>
    match rest with
    | [] =>
      show splitFields (joinFields [f]) = [f]
      unfold joinFields
      exact splitFields_of_comma_free f (hf f (List.mem_cons_self f []))
    | g :: gs =>
      show splitFields (f ++ ',' :: joinFields (g :: gs)) = f :: g :: gs
      rw [splitFields_append_comma f (hf f (List.mem_cons_self f _)) _,
        ih (by simp) (fun x hx => hf x (List.mem_cons_of_mem f hx))]

/-- Store a SyncRecord: one comma-joined csv line per channel vector, in
block order (`writer.writerows(cache)`, line 256). -/
def storeRecord (r : List (List Bool)) : List (List Char) :=
  r.map (fun row => joinFields (encodeFields row))

/-- Load the cache as rows of fields (`csv.reader`, lines 173-175). -/
def loadLines (lines : List (List Char)) : List (List (List Char)) :=
  lines.map splitFields

/-- Load the cache and interpret each field as the replay branch does
(`int(entry[i])` nonzero, line 220). -/
def loadRecord (lines : List (List Char)) : List (List Bool) :=
  (loadLines lines).map decodeFields

theorem decodeField_encodeField (b : Bool) :
    decodeField (encodeField b) = b := by
  cases b <;> decide

theorem encodeField_ne_nil (b : Bool) : encodeField b ≠ [] := by
  cases b <;> decide

theorem comma_not_mem_encodeField (b : Bool) : ',' ∉ encodeField b := by
  cases b <;> decide

theorem decodeFields_encodeFields (row : List Bool) :
    decodeFields (encodeFields row) = row := by
  unfold decodeFields encodeFields
  rw [List.map_map]
  have h : decodeField ∘ encodeField = id := by
    funext b
    exact decodeField_encodeField b
  rw [h, List.map_id]

theorem splitFields_joinFields_encodeFields (row : List Bool)
    (hne : row ≠ []) :
    splitFields (joinFields (encodeFields row)) = encodeFields row := by
  apply splitFields_joinFields
  · simp [encodeFields, hne]
  · intro f hf
    unfold encodeFields at hf
    obtain ⟨x, _, hx⟩ := List.mem_map.mp hf
    rw [← hx]
    exact comma_not_mem_encodeField x

theorem rowRoundtrip (row : List Bool) (hne : row ≠ []) :
    decodeFields (splitFields (joinFields (encodeFields row))) = row := by
  rw [splitFields_joinFields_encodeFields row hne, decodeFields_encodeFields]

/-- C6: storing a non-empty SyncRecord of fixed-width channel vectors to
the cache and loading it back under the same source identity (the cache
file name is a deterministic function of the source path, line 170)
returns the record unchanged, row for row and field for field. -/
theorem c6_cache_roundtrip (r : List (List Bool)) (hne : r ≠ [])
    (hw : ∀ row ∈ r, row.length = 8) :
    loadRecord (storeRecord r) = r := by
  clear hne
  induction r with
  | nil => rfl
  | cons row rest ih =>
    have hrow : row ≠ [] := by
      have h8 := hw row (List.mem_cons_self row rest)
      intro h
      rw [h] at h8
      simp at h8
    show decodeFields (splitFields (joinFields (encodeFields row))) ::
        loadRecord (storeRecord rest) = row :: rest
    rw [rowRoundtrip row hrow,
      ih (fun x hx => hw x (List.mem_cons_of_mem row hx))]

/-- C6 witness: a one-row record of eight ON channels survives the
round-trip. -/
theorem c6_cache_roundtrip_witness :
    loadRecord (storeRecord [List.replicate 8 true]) =
      [List.replicate 8 true] :=
  c6_cache_roundtrip [List.replicate 8 true] (by simp) (by simp)

/-! ## Store atomicity

The store (lines 253-257) opens the cache file at its final path and
writes the rows one after another; there is no temporary file or rename.
A process interruption after `k` of the row writes therefore leaves the
first `k` rows at the cache path. -/

/-- Sequential row writes of `writer.writerows(cache)` (line 256): each
row is appended to the file contents in order. -/
def writeRows : List (List Char) → List (List Char) → List (List Char)
  | file, [] => file
  | file, row :: rest => writeRows (file ++ [row]) rest

/-- File contents at the cache path when the process is interrupted after
`k` of the row writes of a store of record `r`; the file was opened for
writing (truncated) at the final path, line 254. -/
def interruptedStore (r : List (List Bool)) (k : ℕ) : List (List Char) :=
  writeRows [] ((storeRecord r).take k)

/-- File contents after a store of record `r` runs to completion. -/
def completedStore (r : List (List Bool)) : List (List Char) :=
  writeRows [] (storeRecord r)

theorem writeRows_eq (rows : List (List Char)) :
    ∀ file, writeRows file rows = file ++ rows := by
  induction rows with
  | nil => intro file; simp [writeRows]
  | cons row rest ih =>
    intro file
    rw [writeRows, ih]
    simp

/-- C9 counterexample: for the two-row record [[ON], [OFF]], interruption
after the first row write leaves a file that is neither empty nor the
complete record: the store is not atomic with respect to interruption. -/
theorem c9_not_atomic_counterexample :
    interruptedStore [[true], [false]] 1 ≠ [] ∧
    interruptedStore [[true], [false]] 1 ≠ storeRecord [[true], [false]] := by
  constructor <;> decide

/-- C9 amended: the store writes the rows sequentially to the final cache
path, so an interruption after `k` row writes leaves exactly the first `k`
rows visible (a nonempty proper prefix when 0 < k < rows); the complete
record is visible only when the store runs to completion. The store
itself only happens after the whole block loop finishes (line 253), so
aborting playback mid-run leaves no cache at all. -/
theorem c9_store_prefix_visibility (r : List (List Bool)) (k : ℕ) :
    interruptedStore r k = (storeRecord r).take k ∧
    completedStore r = storeRecord r := by
  constructor
  · rw [interruptedStore, writeRows_eq]
    simp
  · rw [completedStore, writeRows_eq]
    simp

/-! ## The main playback loop

Lines 209-251 of the source: for each audio block, either the replay
branch (lines 216-225, applying a cached row to the lights, or only
logging a warning when the rows have run out) or the fresh branch (lines
228-247, running `calculate_levels` and the threshold controller, lighting
the channels and appending the row to the in-memory cache). The second
component of each run result counts the `calculate_levels` invocations. -/

/-- The per-block channel loop of the fresh branch (lines 231-246): each
channel is updated against its band value; returns the emitted channel
vector and the new per-channel states. -/
def updateAll (states : List ChannelState) (bands : List ℚ) :
    List Bool × List ChannelState :=
  let pairs := List.zipWith updateChannel states bands
  (pairs.map Prod.fst, pairs.map Prod.snd)

/-- All eight lights start off (`TurnOffLights()`, line 139). -/
def allOff : List Bool := List.replicate 8 false

/-- The fresh branch of the main loop (lines 228-247), abstracted over the
analyzer (`calculate_levels` applied to the block's PCM data): per block,
analyze, update every channel, emit the channel vector and append it to
the in-progress record; returns the emitted rows in block order, the final
channel states and the number of analyzer calls. -/
def freshRun {α : Type} (analyze : α → List ℚ) :
    List ChannelState → List α → List (List Bool) × List ChannelState × ℕ
  | states, [] => ([], states, 0)
  | states, b :: bs =>
    let r := updateAll states (analyze b)
    let rest := freshRun analyze r.2 bs
    (r.1 :: rest.1, rest.2.1, rest.2.2 + 1)

/-- The replay branch of the main loop (lines 216-225): while cached rows
remain, each block applies the next row to the lights (`int(entry[i])`
nonzero turns the light on, lines 219-223); once the rows run out, only a
warning is logged (line 225) and the lights keep their previous state.
Returns the physical light state during each block, in block order, and
the number of analyzer calls (the replay branch never invokes
`calculate_levels`). -/
def replayRun {α : Type} :
    List (List (List Char)) → List α → List Bool → List (List Bool) × ℕ
  | _, [], _ => ([], 0)
  | [], _ :: bs, lights =>
    let r := replayRun [] bs lights
    (lights :: r.1, r.2)
  | e :: rest, _ :: bs, _ =>
    let l := decodeFields e
    let r := replayRun rest bs l
    (l :: r.1, r.2)

theorem updateAll_fst_length (states : List ChannelState) (bands : List ℚ) :
    (updateAll states bands).1.length = min states.length bands.length := by
  simp [updateAll]

theorem updateAll_snd_length (states : List ChannelState) (bands : List ℚ) :
    (updateAll states bands).2.length = min states.length bands.length := by
  simp [updateAll]

theorem replay_of_fresh {α : Type} (analyze : α → List ℚ)
    (h8 : ∀ b, (analyze b).length = 8) :
    ∀ (blocks : List α) (states : List ChannelState) (lights : List Bool),
      states.length = 8 →
      replayRun (loadLines (storeRecord (freshRun analyze states blocks).1))
          blocks lights =
        ((freshRun analyze states blocks).1, 0) := by
  intro blocks
  induction blocks with
  | nil => intro states lights _; rfl
  | cons b bs ih =>
    intro states lights hlen
    have hentry : (updateAll states (analyze b)).1.length = 8 := by
      rw [updateAll_fst_length, hlen, h8 b]
      simp
    have hentry_ne : (updateAll states (analyze b)).1 ≠ [] := by
      intro h
      rw [h] at hentry
      simp at hentry
    have hstates2 : (updateAll states (analyze b)).2.length = 8 := by
      rw [updateAll_snd_length, hlen, h8 b]
      simp
    show replayRun
        (splitFields (joinFields (encodeFields (updateAll states (analyze b)).1)) ::
          loadLines (storeRecord (freshRun analyze (updateAll states (analyze b)).2 bs).1))
        (b :: bs) lights =
      ((updateAll states (analyze b)).1 ::
        (freshRun analyze (updateAll states (analyze b)).2 bs).1, 0)
    rw [splitFields_joinFields_encodeFields _ hentry_ne]
    show (decodeFields (encodeFields (updateAll states (analyze b)).1) ::
        (replayRun (loadLines (storeRecord (freshRun analyze (updateAll states (analyze b)).2 bs).1)) bs
          (decodeFields (encodeFields (updateAll states (analyze b)).1))).1,
        (replayRun (loadLines (storeRecord (freshRun analyze (updateAll states (analyze b)).2 bs).1)) bs
          (decodeFields (encodeFields (updateAll states (analyze b)).1))).2) = _
    rw [ih (updateAll states (analyze b)).2 _ hstates2,
      decodeFields_encodeFields]

/-- C1: for every audio source (any analyzer returning eight band values
per block) and every block sequence, replaying the record produced by a
fresh run (stored to and loaded from the cache) over the identical block
sequence emits exactly the fresh run's channel vector sequence,
bit-for-bit, and the analyzer is invoked zero times during the replay. -/
theorem c1_replay_equivalence {α : Type} (analyze : α → List ℚ)
    (blocks : List α) (h8 : ∀ b, (analyze b).length = 8) :
    replayRun (loadLines (storeRecord (freshRun analyze initChannels blocks).1))
        blocks allOff =
      ((freshRun analyze initChannels blocks).1, 0) :=
  replay_of_fresh analyze h8 blocks initChannels allOff (by simp [initChannels])

/-- C1 witness: two blocks of a silent source (all band values 0) replay
to exactly the fresh run's output with zero analyzer calls. -/
theorem c1_replay_equivalence_witness :
    replayRun
        (loadLines (storeRecord
          (freshRun (fun _ : Unit => List.replicate 8 (0 : ℚ))
            initChannels [(), ()]).1))
        [(), ()] allOff =
      ((freshRun (fun _ : Unit => List.replicate 8 (0 : ℚ))
          initChannels [(), ()]).1, 0) :=
  c1_replay_equivalence (fun _ : Unit => List.replicate 8 (0 : ℚ)) [(), ()]
    (fun _ => by simp)

theorem replayRun_trace {α : Type} :
    ∀ (blocks : List α) (cache : List (List (List Char))) (lights : List Bool),
      (replayRun cache blocks lights).1 =
        (cache.take blocks.length).map decodeFields ++
          List.replicate (blocks.length - cache.length)
            ((cache.map decodeFields).getLastD lights) := by
  intro blocks
  induction blocks with
  | nil =>
    intro cache lights
    cases cache <;> simp [replayRun]
  | cons b bs ih =>
    intro cache lights
    match cache with
    | [] =>
      show lights :: (replayRun [] bs lights).1 = _
      rw [ih [] lights]
      simp [List.replicate_succ]
    | e :: rest =>
      show decodeFields e :: (replayRun rest bs (decodeFields e)).1 = _
      rw [ih rest (decodeFields e)]
      simp only [List.take_succ_cons, List.map_cons, List.length_cons,
        Nat.succ_sub_succ, List.cons_append]
      rw [List.getLastD_cons]

/-- C7: in replay mode, once the block index reaches the end of the loaded
record, no channel update happens at all: the physical state of every
later block stays exactly the vector decoded from the last cached row, and
the loop only logs a warning (line 225). The second conjunct states that a
replay whose cache is exhausted leaves the lights frozen for every
remaining block. -/
theorem c7_freeze_last_state {α : Type} (cache : List (List (List Char)))
    (blocks : List α) (k : ℕ) (hne : cache ≠ [])
    (hk : cache.length ≤ k) (hkn : k < blocks.length) :
    (replayRun cache blocks allOff).1.get? k =
      some ((cache.map decodeFields).getLastD allOff) ∧
    (∀ (lights : List Bool) (bs : List α),
      (replayRun ([] : List (List (List Char))) bs lights).1 =
        List.replicate bs.length lights) := by
  constructor
  · rw [replayRun_trace blocks cache allOff]
    have hlen : ((cache.take blocks.length).map decodeFields).length =
        cache.length := by
      rw [List.length_map, List.length_take]
      omega
    rw [List.get?_append_right (by omega)]
    rw [hlen]
    have hidx : k - cache.length < blocks.length - cache.length := by omega
    rw [List.get?_eq_getElem?]
    simp [List.getElem?_replicate, hidx]
  · intro lights bs
    rw [replayRun_trace bs [] lights]
    simp

/-- C7 witness: a one-row cache replayed over two blocks leaves the second
block's lights at the decoded first row. -/
theorem c7_freeze_last_state_witness :
    (replayRun [[['1']]] ([(), ()] : List Unit) allOff).1.get? 1 =
      some (([[['1']]].map decodeFields).getLastD allOff) :=
  (c7_freeze_last_state [[['1']]] [(), ()] 1 (by simp) (by simp) (by simp)).1

/-! ## The band-averaging stage of calculate_levels

Lines 181-207 of the source. `piff` maps a frequency to an FFT bin index
with Python-2 integer division. `calculate_levels` averages the magnitude
spectrum over each band's bin slice (`np.mean(power[piff(lo):piff(hi):1])`,
lines 195-202), multiplies by the weighting vector, divides by 100000 and
clips into [0, 100] (lines 204-206). The FFT magnitudes themselves are
taken as the input list `power` (`np.abs(np.fft.rfft(data))` with the last
element removed, lines 190-194). `np.mean` of an empty slice is NaN, not
an exception; the NaN produced for an empty bin range is modelled as
`none`, and it survives the multiply/divide/clip untouched, as NaN does. -/

/-- Bin index of a frequency: `int(2*chunk*val/sample_rate)`, line 182
(Python-2 integer division on naturals). -/
def piff (chunk sample_rate val : ℕ) : ℕ :=
  2 * chunk * val / sample_rate

/-- The slice `power[lo:hi:1]` of lines 195-202. -/
def sliceList {β : Type} (l : List β) (lo hi : ℕ) : List β :=
  (l.take hi).drop lo

/-- `np.mean`: NaN (modelled `none`) over an empty slice, otherwise the
arithmetic mean. -/
def meanOpt (l : List ℚ) : Option ℚ :=
  if l.isEmpty then none else some (l.sum / (l.length : ℚ))

/-- The band boundary table of lines 195-202, in Hz. -/
def bandBounds : List (ℕ × ℕ) :=
  [(0, 156), (156, 313), (313, 625), (625, 1250),
   (1250, 2500), (2500, 5000), (5000, 10000), (10000, 15000)]

/-- The per-channel weighting of line 144. -/
def weighting : List ℚ := [2, 2, 4, 4, 8, 16, 32, 16]

/-- `clip(0, 100)` of line 206. -/
def clip (lo hi x : ℚ) : ℚ := max lo (min hi x)

/-- The band-averaging, weighting, normalization and clipping stage of
`calculate_levels` (lines 195-206), taking the magnitude spectrum `power`
as input: per band, the mean magnitude over the band's bin slice (NaN as
`none` when the slice is empty), then `* weighting[i] / 100000` and
`clip(0, 100)` (NaN propagates through all three). -/
def calculate_levels_bands (power : List ℚ) (chunk sample_rate : ℕ) :
    List (Option ℚ) :=
  List.zipWith
    (fun (bd : ℕ × ℕ) (w : ℚ) =>
      (meanOpt (sliceList power (piff chunk sample_rate bd.1)
        (piff chunk sample_rate bd.2))).map
        (fun m => clip 0 100 (m * w / 100000)))
    bandBounds weighting

theorem sliceList_eq_nil {β : Type} (l : List β) (lo hi : ℕ) (h : hi ≤ lo) :
    sliceList l lo hi = [] := by
  unfold sliceList
  apply List.drop_eq_nil_of_le
  rw [List.length_take]
  omega

/-- C8 counterexample: at chunk 4096 and sample rate 1278145, band 0's bin
range [piff 0, piff 156) is empty, and `calculate_levels` silently yields
the NaN marker for that band: no error is raised and the value is not 0. -/
theorem c8_as_stated_counterexample :
    (calculate_levels_bands [1, 1, 1] 4096 1278145).get? 0 = some none ∧
    piff 4096 1278145 156 ≤ piff 4096 1278145 0 := by
  constructor
  · rfl
  · decide

/-- C8 amended: whenever a band's bin range [piff lo, piff hi) is empty,
`calculate_levels` neither fails nor substitutes 0: it silently produces
NaN (`np.mean` of an empty slice, modelled `none`) as that band's value,
and the weighting, normalization and clip leave the NaN in place. -/
theorem c8_empty_band_nan (power : List ℚ) (c sr i lo hi : ℕ)
    (hbd : bandBounds.get? i = some (lo, hi))
    (hempty : piff c sr hi ≤ piff c sr lo) :
    (calculate_levels_bands power c sr).get? i = some none := by
  have hi8 : i < 8 := by
    by_contra hge
    push_neg at hge
    have : bandBounds.get? i = none := by
      apply List.get?_eq_none.mpr
      simp [bandBounds]
      omega
    rw [this] at hbd
    exact Option.noConfusion hbd
  interval_cases i <;>
    (simp only [bandBounds, List.get?] at hbd
     obtain ⟨rfl, rfl⟩ := Prod.mk.injEq .. ▸ Option.some.injEq .. ▸ hbd
     simp [calculate_levels_bands, bandBounds, weighting,
       sliceList_eq_nil power _ _ hempty, meanOpt])

/-- C8 witness: at chunk 4096 and sample rate 10000000, band 0's bin range
is empty and the band value is the NaN marker. -/
theorem c8_empty_band_nan_witness :
    (calculate_levels_bands [5] 4096 10000000).get? 0 = some none :=
  c8_empty_band_nan [5] 4096 10000000 0 0 156 rfl (by decide)
